import Mathlib

/-!
Verification development for the tag2tag backscatter-tag simulator.

The definitions below are a shallow embedding of the simulator's core:
the timer scheduler and per-owner timers (`tags/state_machine.py`),
the symbolic state machine and its instruction interpreter
(`tags/state_machine.py`), state/tag-machine serialization
(`tags/state_machine.py`), event ordering (`event/load_events.py`),
and the physics feedback solver (`src/physics.py`).

Python floats are embedded as rational numbers (every float is a rational);
complex numbers are embedded as pairs of rationals (`QC`).  Real-valued
computations that are inherently transcendental (logarithms, square roots,
`pi`) are embedded over `ℝ`.
-/

namespace Tag2Tag

/-! ## Rational complex numbers

`QC` embeds Python `complex` values.  All complex arithmetic performed by
the simulator on impedances and phasors is +, -, *, / and conjugation, so
a pair of rationals suffices.  Division is total with `z / 0 = 0`, which
coincides with the simulator's guarded fallback (`except ZeroDivisionError:
gamma = complex(0.0, 0.0)` in `effective_reflection_coefficient`). -/

structure QC where
  re : ℚ
  im : ℚ
  deriving DecidableEq, Repr

namespace QC

def add (z w : QC) : QC := ⟨z.re + w.re, z.im + w.im⟩

def mul (z w : QC) : QC := ⟨z.re * w.re - z.im * w.im, z.re * w.im + z.im * w.re⟩

def neg (z : QC) : QC := ⟨-z.re, -z.im⟩

def conj (z : QC) : QC := ⟨z.re, -z.im⟩

/-- Squared modulus `re² + im²`. -/
def normSq (z : QC) : ℚ := z.re * z.re + z.im * z.im

instance : Zero QC := ⟨⟨0, 0⟩⟩
instance : One QC := ⟨⟨1, 0⟩⟩
instance : Add QC := ⟨add⟩
instance : Mul QC := ⟨mul⟩
instance : Neg QC := ⟨neg⟩

@[simp] theorem zero_re : (0 : QC).re = 0 := rfl
@[simp] theorem zero_im : (0 : QC).im = 0 := rfl
@[simp] theorem one_re : (1 : QC).re = 1 := rfl
@[simp] theorem one_im : (1 : QC).im = 0 := rfl
@[simp] theorem add_re (z w : QC) : (z + w).re = z.re + w.re := rfl
@[simp] theorem add_im (z w : QC) : (z + w).im = z.im + w.im := rfl
@[simp] theorem mul_re (z w : QC) : (z * w).re = z.re * w.re - z.im * w.im := rfl
@[simp] theorem mul_im (z w : QC) : (z * w).im = z.re * w.im + z.im * w.re := rfl
@[simp] theorem neg_re (z : QC) : (-z).re = -z.re := rfl
@[simp] theorem neg_im (z : QC) : (-z).im = -z.im := rfl

theorem ext_iff {z w : QC} : z = w ↔ z.re = w.re ∧ z.im = w.im := by
  constructor
  · intro h; exact ⟨by rw [h], by rw [h]⟩
  · rintro ⟨h1, h2⟩; cases z; cases w; simp_all

protected theorem ext {z w : QC} (h1 : z.re = w.re) (h2 : z.im = w.im) : z = w :=
  ext_iff.mpr ⟨h1, h2⟩

instance commRing : CommRing QC where
  add := add
  add_assoc := by intros; apply QC.ext <;> simp [add] <;> ring
  zero_add := by intros; apply QC.ext <;> simp [add]
  add_zero := by intros; apply QC.ext <;> simp [add]
  add_comm := by intros; apply QC.ext <;> simp [add] <;> ring
  mul := mul
  mul_assoc := by intros; apply QC.ext <;> simp [mul] <;> ring
  one_mul := by intros; apply QC.ext <;> simp [mul]
  mul_one := by intros; apply QC.ext <;> simp [mul]
  left_distrib := by intros; apply QC.ext <;> simp [mul, add] <;> ring
  right_distrib := by intros; apply QC.ext <;> simp [mul, add] <;> ring
  mul_comm := by intros; apply QC.ext <;> simp [mul] <;> ring
  neg := neg
  neg_add_cancel := by intros; apply QC.ext <;> simp [add, neg]
  zero_mul := by intros; apply QC.ext <;> simp [mul]
  mul_zero := by intros; apply QC.ext <;> simp [mul]
  nsmul := nsmulRec
  zsmul := zsmulRec

/-- Multiplicative inverse: `conj z / normSq z`, and `0` for `z = 0`.
Models exact complex division; the `z = 0` case coincides with the
simulator's `ZeroDivisionError` fallback of returning `0`. -/
def inv (z : QC) : QC := ⟨z.re / normSq z, -z.im / normSq z⟩

/-- Division `z / w := z * inv w`. -/
def div (z w : QC) : QC := z * inv w

@[simp] theorem inv_zero : inv 0 = 0 := by
  apply QC.ext <;> simp [inv]

@[simp] theorem inv_one : inv 1 = 1 := by
  apply QC.ext <;> simp [inv, normSq]

@[simp] theorem sub_re (z w : QC) : (z - w).re = z.re - w.re := by
  rw [sub_eq_add_neg, add_re, neg_re]; ring

@[simp] theorem sub_im (z w : QC) : (z - w).im = z.im - w.im := by
  rw [sub_eq_add_neg, add_im, neg_im]; ring

@[simp] theorem conj_re (z : QC) : (conj z).re = z.re := rfl

@[simp] theorem conj_im (z : QC) : (conj z).im = -z.im := rfl

end QC

/-! ## Timer subsystem (`tags/state_machine.py`, lines 18–107)

`Timer`, `TimerScheduler` and `TimerAcceptor` are embedded as explicit
state.  Timer objects are held in an id-indexed store (`timers`) because
the Python code aliases them (the scheduler's heap and the acceptor's
`_last_timer` point at the same mutable object); the heap is modelled as
a list of timer ids kept sorted by `nextRun`, mirroring the heap order
used by `heapq` under `Timer.__lt__` (which compares `_next_run` only).

Firing a timer calls `timer_acceptor.on_timer()`; this model records the
call in a ghost `fired` log `(timer id, owner, simulated fire time)`
instead of running machine code — which callbacks execute, and when, is
exactly what the timer claims are about. -/

structure MTimer where
  /-- Identity of the owning `TimerAcceptor` (`_timer_acceptor`). -/
  owner : ℕ
  /-- `_next_run`: absolute simulated time at which the timer fires. -/
  nextRun : ℚ
  /-- `_is_canceled`. -/
  canceled : Bool
  deriving DecidableEq, Repr

/-- `Timer.run` (lines 33–36): fire the owner's callback only when not
canceled, then cancel.  Returns the updated timer together with the
log entries appended by the call (the fire event, if any); `tid` is the
timer's id and `t` the simulated time of the call. -/
def runTimer (tid : ℕ) (t : ℚ) (timer : MTimer) (log : List (ℕ × ℕ × ℚ)) :
    MTimer × List (ℕ × ℕ × ℚ) :=
  if timer.canceled then (timer, log)
  else ({ timer with canceled := true }, log ++ [(tid, timer.owner, t)])

/-- State of one `TimerScheduler` together with the `_last_timer` fields of
all `TimerAcceptor`s registered with it. -/
structure Sched where
  /-- Timer store; a timer's id is its index at creation time. -/
  timers : List MTimer
  /-- `self.timers`: the heap, as a list of ids sorted by `nextRun`. -/
  heap : List ℕ
  /-- Per-owner `_last_timer`: most recent binding wins (a mutable
  per-acceptor field, embedded as an assoc list updated by consing). -/
  lastTimer : List (ℕ × Option ℕ)
  /-- Ghost log of `on_timer` callback invocations. -/
  fired : List (ℕ × ℕ × ℚ)
  deriving DecidableEq, Repr

def Sched.empty : Sched := ⟨[], [], [], []⟩

/-- Look up a timer by id (ids handed out by `schedSetTimer` are always
in range; out-of-range defaults to an inert canceled timer). -/
def Sched.timerAt (s : Sched) (tid : ℕ) : MTimer :=
  (s.timers.get? tid).getD ⟨0, 0, true⟩

def Sched.setCanceled (s : Sched) (tid : ℕ) : Sched :=
  { s with timers := s.timers.set tid { s.timerAt tid with canceled := true } }

/-- Read an owner's `_last_timer` field. -/
def Sched.getLastTimer (s : Sched) (o : ℕ) : Option ℕ :=
  (s.lastTimer.lookup o).join

/-- Insert an id into the heap keeping it sorted by `nextRun` (ties keep
existing entries first, matching a deterministic heap order under
`Timer.__lt__`, which compares `_next_run` only). -/
def heapInsert (timers : List MTimer) (tid : ℕ) : List ℕ → List ℕ
  | [] => [tid]
  | x :: xs =>
      if ((timers.get? tid).getD ⟨0, 0, true⟩).nextRun <
          ((timers.get? x).getD ⟨0, 0, true⟩).nextRun then
        tid :: x :: xs
      else
        x :: heapInsert timers tid xs

/-- `TimerScheduler.set_timer` (lines 70–79): create a `Timer` at
`now + delay` and push it onto the heap.  (The `interrupt` of the
scheduler process only affects when the scheduler wakes, which the
`drain` model accounts for.)  Returns the new timer's id. -/
def schedSetTimer (s : Sched) (owner : ℕ) (now delay : ℚ) : Sched × ℕ :=
  let tid := s.timers.length
  let timers := s.timers ++ [⟨owner, now + delay, false⟩]
  ({ s with timers := timers, heap := heapInsert timers tid s.heap }, tid)

/-- `TimerAcceptor.set_timer` (lines 90–99): cancel the previous pending
timer of this owner, if any, then schedule a new one — but only when
`delay != 0`; for `delay == 0` nothing is scheduled. -/
def acceptorSetTimer (s : Sched) (owner : ℕ) (now delay : ℚ) : Sched :=
  let s :=
    match s.getLastTimer owner with
    | some tid => { s.setCanceled tid with
                      lastTimer := (owner, none) :: s.lastTimer }
    | none => s
  if delay ≠ 0 then
    let (s, tid) := schedSetTimer s owner now delay
    { s with lastTimer := (owner, some tid) :: s.lastTimer }
  else
    s

/-- One iteration of the scheduler loop body: pop the head of the heap
and `Timer.run` it (`self.timers[0].run(); heapq.heappop(self.timers)`,
lines 56–57). -/
def drainStep (s : Sched) (tid : ℕ) (rest : List ℕ) : Sched :=
  let timer := s.timerAt tid
  let (timer', log') := runTimer tid timer.nextRun timer s.fired
  { s with
      timers := s.timers.set tid timer',
      heap := rest,
      fired := log' }

def drainFuel : ℕ → Sched → Sched
  | 0, s => s
  | fuel + 1, s =>
      match s.heap with
      | [] => s
      | tid :: rest => drainFuel fuel (drainStep s tid rest)

/-- The scheduler loop (`TimerScheduler.run`, lines 50–68) pops timers in
heap order and calls `Timer.run` on each; the surrounding `simpy`
environment wakes the loop at exactly the minimal pending `next_run`
(the loop sleeps `next_run - now` and is interrupted whenever an earlier
timer is pushed), so every timer is run at simulated time equal to its
own `nextRun`.  `drain` runs the loop until the heap is empty; each pop
shortens the heap by one, so `s.heap.length` iterations always empty it
(callbacks are a ghost log here and schedule nothing new). -/
def drain (s : Sched) : Sched := drainFuel s.heap.length s

/-- The two-calls scenario of the timer-cancellation claims: starting from
an idle scheduler, owner `o` calls `set_timer(d1)` at time `t1` and again
`set_timer(d2)` at time `t2`, after which the scheduler drains. -/
def twoTimerScenario (o : ℕ) (t1 d1 t2 d2 : ℚ) : Sched :=
  drain (acceptorSetTimer (acceptorSetTimer Sched.empty o t1 d1) o t2 d2)

/-! ## Symbolic state machine (`tags/state_machine.py`, lines 109–200)

`State` objects form a possibly-cyclic graph via their transition tables.
The graph is embedded as an arena keyed by state name: a transition refers
to its successor state by name, and machines resolve names through the
arena (this is exactly the `StateSerializer` registry's keying).  A
transition's payload type is generic (`α`): the interpreter instantiates
it with `Instr`, serialization with the raw method data `MethodVal`. -/

/-- A symbolic `State` (lines 109–127): a name plus a transition table
`symbol ↦ (method, next-state name)`.  The table is a Python dict,
embedded as an assoc list with dict update semantics (`addTransition`). -/
structure StateN (α : Type) where
  name : String
  transitions : List (String × α × String)
  deriving DecidableEq, Repr

namespace StateN

/-- `State.add_transition` (lines 114–115): dict assignment — overwrite an
existing symbol's entry in place, otherwise append. -/
def addTransition (st : StateN α) (sym : String) (method : α) (next : String) :
    StateN α :=
  if (st.transitions.lookup sym).isSome then
    { st with transitions :=
        st.transitions.map (fun e => if e.1 = sym then (sym, method, next) else e) }
  else
    { st with transitions := st.transitions ++ [(sym, method, next)] }

/-- `State.follow_symbol` (lines 117–121): return the `(method, next)`
pair for `symbol`, or `None` when the symbol has no entry. -/
def followSymbol (st : StateN α) (sym : String) : Option (α × String) :=
  st.transitions.lookup sym

end StateN

/-- The instruction payloads dispatched by `ExecuteMachine._cmd` to the
`_cmd_*` handlers (lines 229–374).  Register values are rationals: Python
ints and floats are both embedded in `ℚ`. -/
inductive Instr where
  | mov (dst src : ℕ)
  | load_imm (dst : ℕ) (value : ℚ)
  | sub (dst a b : ℕ)
  | add (dst a b : ℕ)
  | floor (a : ℕ)
  | abs (a : ℕ)
  | compare (a b : ℕ)
  | comment
  | sequence (cmds : List Instr)
  | self_trigger (symbol : String)
  | set_timer (timerReg : ℕ)

/-- Python `int(x)` truncates toward zero (`_cmd_floor`, line 302). -/
def pyInt (q : ℚ) : ℚ := ((Int.tdiv q.num q.den : ℤ) : ℚ)

/-- One `ExecuteMachine` (lines 218–398): a `StateMachine` (current and
initial state) plus eight registers and the re-entrancy queue
`transition_queue`.  `dispatched` and `timerReqs` are ghost
instrumentation: the symbols popped and processed by the drain loop, and
the delays passed to `_cmd_set_timer`. -/
structure EMachine where
  arena : List (String × StateN Instr)
  current : String
  initState : String
  registers : List ℚ
  transitionQueue : Option (List String)
  dispatched : List String
  timerReqs : List ℚ

namespace EMachine

/-- Resolve a state name in the arena (a dangling reference resolves to an
inert state with an empty transition table; machine construction always
registers the states it uses). -/
def stateAt (m : EMachine) (name : String) : StateN Instr :=
  (m.arena.lookup name).getD ⟨name, []⟩

def getReg (m : EMachine) (r : ℕ) : ℚ := m.registers.getD r 0

def setReg (m : EMachine) (r : ℕ) (v : ℚ) : EMachine :=
  { m with registers := m.registers.set r v }

/-- `StateMachine.transition` (lines 195–200): look the symbol up in the
current state's table; on a hit move to the mapped next state and return
the mapped instruction, on a miss return `None` and change nothing. -/
def transitionM (m : EMachine) (sym : String) : Option Instr × EMachine :=
  match (m.stateAt m.current).followSymbol sym with
  | none => (none, m)
  | some (instr, next) => (some instr, { m with current := next })

end EMachine

/-- The interpreter's pending activations.  `cmd` is `_cmd` dispatch of one
instruction, `seq` the tail of a `_cmd_sequence` iteration, `accept` a call
to `_accept_symbol`, `drainQ` the drain loop of the outermost
`_accept_symbol` call. -/
inductive Call where
  | cmd (i : Instr)
  | seq (cmds : List Instr)
  | accept (symbol : String)
  | drainQ

/-- `compare`'s emitted symbol (`_cmd_compare`, lines 324–338). -/
def cmpSymbol (a b : ℚ) : String :=
  if a < b then "lt" else if a = b then "eq" else "gt"

mutual

/-- The instruction interpreter of `ExecuteMachine` (lines 229–398),
written as a fueled small-step executive: every recursive activation
consumes one unit of fuel, and a run with exhausted fuel returns the
machine unchanged (the theorems quantify over sufficient fuel).

`.accept sym` is `_accept_symbol` (lines 382–398): if a drain is already
in progress (`transition_queue is not None`) the symbol is appended to
the pending queue and the call returns at once; otherwise the queue is
created with this single symbol and this outermost call drains it.

`.drainQ` is the drain loop: pop the queue head, `transition` on it,
dispatch the resulting instruction if any, repeat; when the queue is
empty, set `transition_queue = None`. -/
def run : ℕ → Call → EMachine → EMachine
  | 0, _, m => m
  | fuel + 1, .cmd i, m =>
      match i with
      | .mov dst src => m.setReg dst (m.getReg src)
      | .load_imm dst v => m.setReg dst v
      | .sub dst a b => m.setReg dst (m.getReg a - m.getReg b)
      | .add dst a b => m.setReg dst (m.getReg a + m.getReg b)
      | .floor a => m.setReg a (pyInt (m.getReg a))
      | .abs a => m.setReg a |m.getReg a|
      | .compare a b => run fuel (.accept (cmpSymbol (m.getReg a) (m.getReg b))) m
      | .comment => m
      | .sequence cmds => run fuel (.seq cmds) m
      | .self_trigger s => run fuel (.accept s) m
      | .set_timer r => { m with timerReqs := m.timerReqs ++ [m.getReg r] }
  | fuel + 1, .seq cmds, m =>
      match cmds with
      | [] => m
      | c :: cs => run fuel (.seq cs) (run fuel (.cmd c) m)
  | fuel + 1, .accept sym, m =>
      match m.transitionQueue with
      | some q => { m with transitionQueue := some (q ++ [sym]) }
      | none => run fuel .drainQ { m with transitionQueue := some [sym] }
  | fuel + 1, .drainQ, m =>
      match m.transitionQueue with
      | none => m
      | some [] => { m with transitionQueue := none }
      | some (sym :: rest) => run fuel .drainQ (dispatchSym fuel sym
          { m with transitionQueue := some rest,
                   dispatched := m.dispatched ++ [sym] })

/-- Process one popped symbol: `transition` then dispatch the resulting
instruction, if any (loop body of `_accept_symbol`, lines 391–397). -/
def dispatchSym (fuel : ℕ) (sym : String) (m : EMachine) : EMachine :=
  match m.transitionM sym with
  | (none, m') => m'
  | (some i, m') => run fuel (.cmd i) m'

end

/-- `ExecuteMachine._accept_symbol` as the public entry (`accept_symbol`
via `prepare`/`on_timer`/`on_recv_*`; the Python name's underscore marks
re-entrant internal use of the same method). -/
def acceptSymbol (fuel : ℕ) (sym : String) (m : EMachine) : EMachine :=
  run fuel (.accept sym) m

def Call.isDrain : Call → Bool
  | .drainQ => true
  | _ => false

/-- A two-state sample machine for concrete evaluations. -/
def demoState : StateN Instr := ⟨"s0", [("go", (.comment, "s1"))]⟩

def demoMachine : EMachine :=
  ⟨[("s0", demoState)], "s0", "s0", [0, 0, 0, 0, 0, 0, 0, 0], none, [], []⟩

/-- The sample machine while a drain is in progress with one pending symbol. -/
def demoBusy : EMachine := { demoMachine with transitionQueue := some ["p"] }

/-! ## Event ordering (`event/load_events.py`)

`SortableEvent` wraps an event with the sort key used by `sort_events`:
the event time, the casefolded event-type name, and `hash(json.dumps(
event.args, sort_keys=True))`.  `json.dumps(..., sort_keys=True)` is a
deterministic function of the args, embedded here as the precomputed
canonical string `argsJson`.  CPython's `hash` on `str` is salted per
process (`PYTHONHASHSEED`), so the hash of that string is a property of
the *run*, not of the event: it is embedded as an explicit parameter
`h : String → ℤ`, one function per program run. -/

structure PyEvent where
  time : ℚ
  eventType : String
  argsJson : String
  deriving DecidableEq, Repr

/-- `str.casefold` (embedded as lowercasing, with which it agrees on the
ASCII event-type names the simulator uses). -/
def caseFold (s : String) : String := s.toLower

/-- `SortableEvent.__lt__` (lines 17–27): order by time, then by the
casefolded event-type name, then by the hash of the canonical args JSON. -/
def sortableLt (h : String → ℤ) (a b : PyEvent) : Bool :=
  if a.time ≠ b.time then decide (a.time < b.time)
  else if caseFold a.eventType ≠ caseFold b.eventType then
    decide (caseFold a.eventType < caseFold b.eventType)
  else decide (h a.argsJson < h b.argsJson)

/-- The non-strict counterpart `¬ (other < self)` of `__lt__`; `sorted`
with `__lt__` produces exactly a stable sort with respect to this
relation. -/
def sortableLe (h : String → ℤ) (a b : PyEvent) : Prop :=
  sortableLt h b a ≠ true

instance (h : String → ℤ) : DecidableRel (sortableLe h) := fun a b =>
  inferInstanceAs (Decidable (sortableLt h b a ≠ true))

/-- `sort_events` (lines 40–44): Python's `sorted` is a stable sort driven
by `SortableEvent.__lt__`; a stable sort is extensionally determined by the
comparator, so it is embedded as stable insertion sort. -/
def sortEvents (h : String → ℤ) (evs : List PyEvent) : List PyEvent :=
  List.insertionSort (sortableLe h) evs

/-- The comparator's sort key, as a lexicographic triple. -/
def keyOf (h : String → ℤ) (e : PyEvent) : ℚ ×ₗ (String ×ₗ ℤ) :=
  toLex (e.time, toLex (caseFold e.eventType, h e.argsJson))

/-- Stand-ins for the salted string-hash functions of two distinct runs of
the interpreter (`hash(str)` varies with the per-process hash salt). -/
def hashRunA : String → ℤ := fun s => if s = "x" then 0 else 1

def hashRunB : String → ℤ := fun s => if s = "x" then 1 else 0

def evX : PyEvent := ⟨0, "evt", "x"⟩

def evY : PyEvent := ⟨0, "evt", "y"⟩

/-! ## State and tag-machine serialization (`tags/state_machine.py`,
lines 129–181 and 502–519)

A transition's `method` payload is arbitrarily nested tuples of atoms
(strings and numbers).  `_method_to_dict` turns tuples into JSON arrays,
`_method_from_dict` turns JSON arrays back into tuples; atoms pass
through unchanged. -/

inductive MethodVal where
  | str (s : String)
  | num (q : ℚ)
  | tup (elems : List MethodVal)

inductive JVal where
  | str (s : String)
  | num (q : ℚ)
  | arr (elems : List JVal)

mutual

/-- `State._method_to_dict` (lines 136–141). -/
def methodToDict : MethodVal → JVal
  | .str s => .str s
  | .num q => .num q
  | .tup l => .arr (methodToDictList l)

def methodToDictList : List MethodVal → List JVal
  | [] => []
  | x :: xs => methodToDict x :: methodToDictList xs

end

mutual

/-- `State._method_from_dict` (lines 129–134). -/
def methodFromDict : JVal → MethodVal
  | .str s => .str s
  | .num q => .num q
  | .arr l => .tup (methodFromDictList l)

def methodFromDictList : List JVal → List MethodVal
  | [] => []
  | x :: xs => methodFromDict x :: methodFromDictList xs

end

/-- `State.to_dict` output (lines 143–150): the state's name and its
transition table with serialized methods and next-state names. -/
structure StateDict where
  id : String
  transitions : List (String × JVal × String)

def stateToDict (st : StateN MethodVal) : StateDict :=
  ⟨st.name, st.transitions.map (fun t => (t.1, methodToDict t.2.1, t.2.2))⟩

/-- A `StateSerializer` (lines 166–181) is a name-keyed registry of
`State` objects.  The reconstruction path only ever queries it through
`get_state`, so it is embedded as its lookup function. -/
def SerF := String → Option (StateN MethodVal)

def emptySerF : SerF := fun _ => none

def serUpdate (ser : SerF) (n : String) (st : StateN MethodVal) : SerF :=
  fun m => if m = n then some st else ser m

/-- `StateSerializer.get_state` (lines 172–175): return the state
registered under `name`, creating and registering a fresh transition-less
`State(name)` when absent. -/
def getState (ser : SerF) (n : String) : SerF × StateN MethodVal :=
  match ser n with
  | some st => (ser, st)
  | none => (serUpdate ser n ⟨n, []⟩, ⟨n, []⟩)

/-- A deserialized transition entry
(`(expect_input, (method, output_id))` of `State.from_dict`). -/
def convTr (t : String × JVal × String) : String × MethodVal × String :=
  (t.1, methodFromDict t.2.1, t.2.2)

/-- The loop body of `State.from_dict` (lines 158–162): for each
serialized transition, resolve the successor through the serializer and
`add_transition` on the state registered under `id` (the Python code
mutates that shared object; here the registry entry is updated). -/
def addTransitions (ser : SerF) (id : String) :
    List (String × JVal × String) → SerF
  | [] => ser
  | (sym, mj, outId) :: rest =>
      let ser := (getState ser outId).1
      let st := ((ser id).getD ⟨id, []⟩).addTransition sym (methodFromDict mj) outId
      addTransitions (serUpdate ser id st) id rest

/-- `State.from_dict` on a full state dict (lines 152–163): `get_state`
the id, then replay each serialized transition. -/
def stateFromDict (ser : SerF) (d : StateDict) : SerF :=
  addTransitions (getState ser d.id).1 d.id d.transitions

/-- Loading a `StateSerializer.to_dict` dump: `State.from_dict` each state
dict, in order, through one shared serializer. -/
def loadStates (ds : List StateDict) : SerF :=
  ds.foldl stateFromDict emptySerF

/-- A tag machine reduces to its three component machines' initial-state
names (`TagMachine.to_dict`, lines 502–507). -/
structure TMDict where
  inputMachine : String
  processingMachine : String
  outputMachine : String

/-- `TagMachine.from_dict` (lines 509–519): resolve the three initial
states by name through the shared serializer (`State.from_dict` applied
to a plain string resolves via `serializer.get_state`, lines 154–155). -/
def tagMachineFromDict (ser : SerF) (d : TMDict) :
    SerF × StateN MethodVal × StateN MethodVal × StateN MethodVal :=
  let (ser, s1) := getState ser d.inputMachine
  let (ser, s2) := getState ser d.processingMachine
  let (ser, s3) := getState ser d.outputMachine
  (ser, s1, s2, s3)

/-- The symbols of a transition table. -/
def trSymbols (l : List (String × MethodVal × String)) : List String :=
  l.map (fun t => t.1)

/-! ## Physics engine (`src/physics.py`)

Python floats are embedded as rationals; values produced by inherently
transcendental operations (square roots, `log10`, `pi`) live in `ℝ`.
Complex phasors and impedances are `QC`.  `get_sig_tx_rx` (lines 92–105)
multiplies a real square-root attenuation by `e^(i·2π·d/λ)` and is
transcendental-valued, so the matrix pipeline is parameterized by the
signal functions `sigT` (tag→tag) and `sigE` (exciter→tag); every claim
below is independent of their values. -/

structure PExciter where
  name : String
  pos : ℚ × ℚ × ℚ
  /-- Transmit power in mW (`exciter.get_power()`). -/
  power : ℚ
  /-- Antenna gain in dBi (the `attenuation` docstring's unit). -/
  gain : ℚ
  impedance : QC
  frequency : ℚ
  deriving DecidableEq, Repr

structure PTag where
  name : String
  pos : ℚ × ℚ × ℚ
  gain : ℚ
  /-- Antenna (feed) impedance, `tag.get_impedance()`. -/
  impedance : QC
  frequency : ℚ
  /-- `TagMode` index; `0` is listening (`tags/tag.py`, lines 10–42). -/
  mode : ℕ
  /-- The chip-impedance table indexed by mode. -/
  chipImpedances : List QC
  /-- Optional per-tag `power_on_threshold_dbm` attribute. -/
  powerOnThresholdDbm : Option ℚ
  deriving DecidableEq, Repr

/-- `scipy.constants.c` (exact by definition). -/
def lightSpeed : ℝ := 299792458

/-- `dbi_to_linear` (lines 24–26). -/
noncomputable def dbiToLinear (dbi : ℝ) : ℝ := (10 : ℝ) ^ (dbi / 10)

/-- `PhysicsEngine.attenuation` (lines 59–90): two-region model — cubic
fall-off inside the reactive near-field radius `λ/(2π)`, Friis inverse
square beyond it; non-positive distance yields zero. -/
noncomputable def attenuation (distance wavelength txGainDbi rxGainDbi : ℝ) : ℝ :=
  if distance ≤ 0 then 0
  else
    let txGain := dbiToLinear txGainDbi
    let rxGain := dbiToLinear rxGainDbi
    let reactiveLimit := wavelength / (2 * Real.pi)
    if distance < reactiveLimit then
      (txGain * rxGain * wavelength ^ 2) / (4 * Real.pi * reactiveLimit) ^ 2 *
        (reactiveLimit / distance) ^ 3
    else
      (txGain * rxGain * wavelength ^ 2) / (4 * Real.pi * distance) ^ 2

/-- `scipy.spatial.distance.euclidean` on 3-positions. -/
noncomputable def euclid (p q : ℚ × ℚ × ℚ) : ℝ :=
  Real.sqrt (((p.1 - q.1 : ℚ) : ℝ) ^ 2 + ((p.2.1 - q.2.1 : ℚ) : ℝ) ^ 2 +
    ((p.2.2 - q.2.2 : ℚ) : ℝ) ^ 2)

/-- `mW_to_dBm` (lines 16–19): `-999.0` for non-positive input, otherwise
`10·log10`. -/
noncomputable def mWtodBm (mw : ℝ) : ℝ :=
  if mw ≤ 0 then -999 else 10 * Real.logb 10 mw

/-- `PhysicsEngine.power_from_exciter_at_tag_mw` (lines 107–131). -/
noncomputable def powerFromExciterAtTagMw (ex : PExciter) (t : PTag) : ℝ :=
  if (ex.power : ℝ) ≤ 0 then 0
  else
    max ((ex.power : ℝ) *
      attenuation (euclid ex.pos t.pos) (lightSpeed / (ex.frequency : ℝ))
        (ex.gain : ℝ) (t.gain : ℝ)) 0

/-- The engine configuration (`PhysicsEngine.__init__`, lines 30–57); the
constructor default for `default_power_on_dbm` is `-100.0`.  The claims
address the deterministic envelope voltage, i.e. the `noise_std_volts = 0`
configuration (the constructor default); with noise enabled the code
additionally perturbs the returned RMS voltage by a Gaussian sample. -/
structure PEngine where
  exciter : PExciter
  defaultPowerOnDbm : ℚ

/-- The threshold used by `is_tag_powered` (line 148): the per-tag
attribute when present, else the engine default. -/
def tagThreshold (e : PEngine) (t : PTag) : ℚ :=
  t.powerOnThresholdDbm.getD e.defaultPowerOnDbm

/-- `PhysicsEngine.is_tag_powered` (lines 133–149). -/
def isTagPowered (e : PEngine) (t : PTag) : Prop :=
  mWtodBm (powerFromExciterAtTagMw e.exciter t) ≥ (tagThreshold e t : ℝ)

/-- `PASSIVE_REF = complex(0.01, 0.0)` (lines 164–165). -/
def passiveRef : QC := ⟨1 / 100, 0⟩

/-- Modelled from the spec: the `Tag` class used by `src/physics.py`
(in particular its `get_chip_impedance` accessor) is not among the
provided sources — only its callers are.  Per the spec's data model a tag
holds "a table of reflection coefficients (or chip impedances) indexed by
mode", so the current chip impedance is the table entry at the current
mode index. -/
def getChipImpedance (t : PTag) : QC := t.chipImpedances.getD t.mode 0

open Classical in
/-- `PhysicsEngine.effective_reflection_coefficient` (lines 151–179): the
fixed passive value when the tag is unpowered or listening, otherwise
`(Z_chip − conj(Z_ant)) / (Z_chip + Z_ant)`; `QC.div` returns `0` on a
zero divisor exactly like the `ZeroDivisionError` fallback. -/
noncomputable def effectiveReflectionCoefficient (e : PEngine) (t : PTag) : QC :=
  if ¬ isTagPowered e t ∨ t.mode = 0 then passiveRef
  else QC.div (getChipImpedance t - QC.conj t.impedance)
    (getChipImpedance t + t.impedance)

/-- Python `round(x, 8)`.  (Mathlib's `round` rounds half upward while
Python rounds half to even; the two agree except at exact half-multiples
of `10⁻⁸`, which none of the developments below exercise.) -/
def roundTo8 (q : ℚ) : ℚ := (round (q * 100000000) : ℤ) / 100000000

/-- `PhysicsEngine._compute_state_hash` (lines 181–196): per tag, in dict
order, the position triple and the *real parts* of the chip and antenna
impedances (`x.real if isinstance(x, complex) else x`), each rounded to 8
decimal places.  The `hash(tuple(...))` call is embedded as the key tuple
itself: Python's numeric hashing is deterministic, and the cache check
relies only on equal tuples having equal hashes. -/
def computeStateKey (tags : List (String × PTag)) : List ℚ :=
  (tags.map (fun p =>
    [roundTo8 p.2.pos.1, roundTo8 p.2.pos.2.1, roundTo8 p.2.pos.2.2,
      roundTo8 (getChipImpedance p.2).re, roundTo8 p.2.impedance.re])).flatten

/-- `tags[name] if name in tags else receiving_tag` (lines 231, 235, 241,
248). -/
def tagOfName (tags : List (String × PTag)) (rx : PTag) (nm : String) : PTag :=
  (tags.lookup nm).getD rx

/-- `tag_names = list(tags.keys())`, appending the receiving tag's name
when absent (lines 214–216). -/
def buildTagNames (tags : List (String × PTag)) (rx : PTag) : List String :=
  tags.map (fun p => p.1) ++
    (if rx.name ∈ tags.map (fun p => p.1) then [] else [rx.name])

/-- The `H` matrix as built by the nested loops of lines 228–236: zero
diagonal, `H[i][j] = sig(tag_j, tag_i)` off it. -/
def buildHList (sigT : PTag → PTag → QC) (tags : List (String × PTag))
    (rx : PTag) (names : List String) : List (List QC) :=
  (List.range names.length).map (fun i =>
    (List.range names.length).map (fun j =>
      if i = j then 0
      else sigT (tagOfName tags rx (names.getD j ""))
        (tagOfName tags rx (names.getD i ""))))

/-- The `gammas` array of lines 239–242. -/
noncomputable def buildGammaList (e : PEngine) (tags : List (String × PTag))
    (rx : PTag) (names : List String) : List QC :=
  names.map (fun nm => effectiveReflectionCoefficient e (tagOfName tags rx nm))

/-- The `h_exciter` vector of lines 246–249. -/
def buildHexcList (sigE : PTag → QC) (tags : List (String × PTag))
    (rx : PTag) (names : List String) : List QC :=
  names.map (fun nm => sigE (tagOfName tags rx nm))

/-- View a list-of-rows as a square matrix (out-of-range entries 0). -/
def toMat (n : ℕ) (rows : List (List QC)) : Matrix (Fin n) (Fin n) QC :=
  Matrix.of fun i j => (((rows.get? i).getD []).get? j).getD 0

/-- View a list as a vector (out-of-range entries 0). -/
def toVec (n : ℕ) (v : List QC) : Fin n → QC := fun i => (v.get? i).getD 0

/-- `np.linalg.solve(A, h)` (line 254) returns the unique solution of
`A·x = h` for invertible `A`; by Cramer's rule that solution is
`det(A)⁻¹ · adjugate(A) · h`, which is how it is embedded. -/
def npSolve (n : ℕ) (A : Matrix (Fin n) (Fin n) QC) (b : Fin n → QC) :
    Fin n → QC :=
  fun i => QC.inv A.det * A.adjugate.mulVec b i

/-- Lines 251–254: `Gamma = np.diag(gammas)`, `A = I - H @ Gamma`,
`S = np.linalg.solve(A, h_exciter)`. -/
def solveSystem (H : List (List QC)) (gammas hexc : List QC) : List QC :=
  List.ofFn (npSolve hexc.length
    (1 - toMat hexc.length H * Matrix.diagonal (toVec hexc.length gammas))
    (toVec hexc.length hexc))

/-- `abs` of a `QC` value (Python `abs` on `complex`). -/
noncomputable def cAbs (z : QC) : ℝ := Real.sqrt ((QC.normSq z : ℚ) : ℝ)

/-- Lines 266–271: `pwr_received = abs(rx_field)`,
`v_pk = sqrt(abs(rx_impedance * pwr_received) / 500)`,
`v_rms = v_pk / sqrt(2)`.  Python's `abs(rx_impedance * pwr_received)`
is the complex modulus `|Z_rx|·pwr_received` since `pwr_received ≥ 0`. -/
noncomputable def vRmsOf (zrx : QC) (rxField : QC) : ℝ :=
  Real.sqrt (|cAbs zrx * cAbs rxField| / 500) / Real.sqrt 2

/-- The engine's `_cached_state` slot (lines 49–57 and 256–264). -/
structure EngCache where
  tagNames : Option (List String)
  H : Option (List (List QC))
  Gamma : Option (List QC)
  hExciter : Option (List QC)
  S : Option (List QC)
  keyHash : Option (List ℚ)

def emptyCache : EngCache := ⟨none, none, none, none, none, none⟩

/-- `PhysicsEngine.voltage_at_tag` (lines 199–277): reuse the cached `S`
when the state hash, the cached `S` and the tag-name order all match
(line 225); otherwise rebuild `H`, `Γ`, `h_exciter`, solve, and cache.
Returns the (pre-noise) RMS voltage together with the updated cache. -/
noncomputable def voltageAtTag (e : PEngine) (sigT : PTag → PTag → QC)
    (sigE : PTag → QC) (cache : EngCache) (tags : List (String × PTag))
    (rx : PTag) : ℝ × EngCache :=
  let names := buildTagNames tags rx
  if names.length = 0 then (0, cache)
  else
    let key := computeStateKey tags
    if cache.keyHash = some key ∧ cache.S.isSome ∧ cache.tagNames = some names then
      (vRmsOf rx.impedance ((cache.S.getD []).getD (names.indexOf rx.name) 0),
        cache)
    else
      let H := buildHList sigT tags rx names
      let gammas := buildGammaList e tags rx names
      let hexc := buildHexcList sigE tags rx names
      let S := solveSystem H gammas hexc
      (vRmsOf rx.impedance (S.getD (names.indexOf rx.name) 0),
        ⟨some names, some H, some gammas, some hexc, some S, some key⟩)

/-- Serializer evolution during loading: an entry is either preserved or
freshly created empty (by `get_state` on a previously unseen name). -/
def PresOrNew (f g : SerF) (m : String) : Prop :=
  g m = f m ∨ (f m = none ∧ g m = some ⟨m, []⟩)

/-- Two concrete states for evaluating the round trip. -/
def wStates : List (StateN MethodVal) :=
  [⟨"a", [("go", ⟨.tup [.str "self_trigger", .str "x"], "b"⟩)]⟩, ⟨"b", []⟩]

/-- Sample exciter transmitting zero power: every tag then harvests 0 mW,
which `mW_to_dBm` maps to −999 dBm. -/
def ex0 : PExciter := ⟨"EX", (0, 0, 0), 0, 1, ⟨50, 0⟩, 915000000⟩

def e0 : PEngine := ⟨ex0, -100⟩

/-- A listening tag. -/
def wTagListen : PTag := ⟨"L", (1, 0, 0), 1, ⟨50, 10⟩, 915000000, 0, [⟨5, 5⟩], none⟩

/-- A transmitting tag below the engine-default −100 dBm threshold. -/
def wTagUnpowered : PTag :=
  ⟨"U", (1, 0, 0), 1, ⟨50, 10⟩, 915000000, 2, [⟨5, 5⟩, ⟨7, 7⟩, ⟨9, 9⟩], none⟩

/-- A transmitting tag whose per-tag threshold −10000 dBm always powers it. -/
def wTagPowered : PTag :=
  ⟨"P", (1, 0, 0), 1, ⟨50, 10⟩, 915000000, 1, [⟨50, 0⟩, ⟨50, 0⟩], some (-10000)⟩

/-- A tag whose powered reflection coefficient is exactly zero
(`Z_chip = conj(Z_ant) = 50`). -/
def wTagGammaZero : PTag :=
  ⟨"Z", (1, 0, 0), 1, ⟨50, 0⟩, 915000000, 1, [⟨1, 1⟩, ⟨50, 0⟩], some (-10000)⟩

/-- Constant signal functions for concrete evaluations: the memoization
logic is independent of the (transcendental) phasor values. -/
def sigOne : PTag → PTag → QC := fun _ _ => 1

def sigEOne : PTag → QC := fun _ => 1

/-- Transmitting tag: mode 1, both chip-impedance entries equal 50 Ω, so a
mode change does not change the hashed state. -/
def cTagA : PTag :=
  ⟨"A", (0, 0, 0), 1, ⟨50, 10⟩, 915000000, 1, [⟨50, 0⟩, ⟨50, 0⟩], some (-10000)⟩

/-- The same tag after switching to listening mode. -/
def cTagA' : PTag :=
  ⟨"A", (0, 0, 0), 1, ⟨50, 10⟩, 915000000, 0, [⟨50, 0⟩, ⟨50, 0⟩], some (-10000)⟩

def cTagB : PTag :=
  ⟨"B", (2, 0, 0), 1, ⟨50, 10⟩, 915000000, 0, [⟨50, 0⟩, ⟨50, 0⟩], some (-10000)⟩

def cTags1 : List (String × PTag) := [("A", cTagA), ("B", cTagB)]

def cTags2 : List (String × PTag) := [("A", cTagA'), ("B", cTagB)]

/-- C1: if `set_timer` is called a second time on the same owner before the
owner's previously scheduled timer fires, the first timer's `on_timer`
callback never executes, and only the second timer fires, at the second's
scheduled time `t2 + d2` — the fired-callback log of the whole run contains
exactly the second timer's single firing. -/
theorem timer_cancellation (o : ℕ) (t1 d1 t2 d2 : ℚ)
    (hd1 : 0 < d1) (_hbefore : t2 < t1 + d1) (hd2 : 0 < d2) :
    (twoTimerScenario o t1 d1 t2 d2).fired = [(1, o, t2 + d2)] := by
  have h1 : d1 ≠ 0 := ne_of_gt hd1
  have h2 : d2 ≠ 0 := ne_of_gt hd2
  by_cases hord : t2 + d2 < t1 + d1 <;>
    simp [twoTimerScenario, acceptorSetTimer, schedSetTimer, heapInsert,
      Sched.setCanceled, Sched.timerAt, Sched.getLastTimer, Sched.empty,
      drain, drainFuel, drainStep, runTimer, h1, h2, hord]

theorem timer_cancellation_witness :
    (twoTimerScenario 0 0 5 3 4).fired = [(1, 0, 7)] := by
  have h := timer_cancellation 0 0 5 3 4 (by norm_num) (by norm_num) (by norm_num)
  norm_num at h
  exact h

/-- C8 counterexample: calling `set_timer` with `delay = 0` does **not**
cause the owner's `on_timer` callback to run.  Starting from an idle
scheduler, `set_timer(0)` creates no timer at all (`if delay != 0` guards
the scheduling, lines 97–98), and draining the scheduler fires nothing:
the callback is silently dropped. -/
theorem set_timer_zero_drops_callback :
    (drain (acceptorSetTimer Sched.empty 0 0 0)).fired = [] ∧
    (acceptorSetTimer Sched.empty 0 0 0).timers = [] := by
  constructor <;> rfl

/-- C8 amended: `set_timer(owner, 0)` cancels the owner's pending timer
(if any) and schedules nothing: no new timer is created, the heap and the
callback log are untouched, the owner's `_last_timer` becomes `None`, and
the previously pending timer (if any) is marked canceled. -/
theorem set_timer_zero_cancels_only (s : Sched) (o : ℕ) (now : ℚ) :
    (acceptorSetTimer s o now 0).heap = s.heap ∧
    (acceptorSetTimer s o now 0).fired = s.fired ∧
    (acceptorSetTimer s o now 0).timers.length = s.timers.length ∧
    (acceptorSetTimer s o now 0).getLastTimer o = none ∧
    (∀ tid, s.getLastTimer o = some tid → tid < s.timers.length →
      (acceptorSetTimer s o now 0).timerAt tid =
        { s.timerAt tid with canceled := true }) := by
  cases hlk : s.getLastTimer o with
  | none =>
      refine ⟨?_, ?_, ?_, ?_, ?_⟩ <;>
        simp only [acceptorSetTimer, hlk] <;> simp [hlk]
  | some tid =>
      refine ⟨?_, ?_, ?_, ?_, ?_⟩
      case refine_5 =>
        intro tid' htid' hlen
        injection htid' with h
        subst h
        simp only [acceptorSetTimer, hlk]
        simp [Sched.setCanceled, Sched.timerAt,
          List.getElem?_set_eq_of_lt _ hlen]
      all_goals
        simp only [acceptorSetTimer, hlk] <;>
        simp [Sched.setCanceled, Sched.getLastTimer, Sched.timerAt]

theorem set_timer_zero_cancels_only_witness :
    (acceptorSetTimer ⟨[⟨0, 9, false⟩], [0], [(0, some 0)], []⟩ 0 2 0).heap = [0] ∧
    (acceptorSetTimer ⟨[⟨0, 9, false⟩], [0], [(0, some 0)], []⟩ 0 2 0).timerAt 0 =
      ⟨0, 9, true⟩ := by
  have h := set_timer_zero_cancels_only ⟨[⟨0, 9, false⟩], [0], [(0, some 0)], []⟩ 0 2
  exact ⟨h.1, h.2.2.2.2 0 rfl (by norm_num)⟩

/-- C10: a `Timer` fires its owner's callback at most once.  `Timer.run`
invokes `on_timer` only when the canceled flag is unset and sets the flag
right after the invocation, so a second `run` on the same timer (e.g. from
a stale heap entry) is a no-op: it changes neither the timer nor the
callback log.  Moreover a fresh (un-canceled) timer logs exactly one
firing, and a canceled timer logs none. -/
theorem timer_run_at_most_once (tid : ℕ) (t t' : ℚ) (timer : MTimer)
    (log : List (ℕ × ℕ × ℚ)) :
    (runTimer tid t timer log).1.canceled = true ∧
    runTimer tid t' (runTimer tid t timer log).1 (runTimer tid t timer log).2 =
      ((runTimer tid t timer log).1, (runTimer tid t timer log).2) ∧
    (timer.canceled = false →
      (runTimer tid t timer log).2 = log ++ [(tid, timer.owner, t)]) ∧
    (timer.canceled = true → runTimer tid t timer log = (timer, log)) := by
  cases h : timer.canceled <;> simp [runTimer, h]

theorem timer_run_at_most_once_witness :
    runTimer 0 3 (runTimer 0 2 ⟨7, 2, false⟩ []).1 (runTimer 0 2 ⟨7, 2, false⟩ []).2 =
      ((runTimer 0 2 ⟨7, 2, false⟩ []).1, (runTimer 0 2 ⟨7, 2, false⟩ []).2) ∧
    (runTimer 0 2 ⟨7, 2, false⟩ []).2 = [(0, 7, 2)] := by
  have h := timer_run_at_most_once 0 2 3 ⟨7, 2, false⟩ []
  exact ⟨h.2.1, h.2.2.1 rfl⟩

theorem run_queue_extends (fuel : ℕ) :
    ∀ (c : Call) (m : EMachine) (q : List String),
      c.isDrain = false → m.transitionQueue = some q →
      ∃ ext, (run fuel c m).transitionQueue = some (q ++ ext) := by
  induction fuel with
  | zero =>
      intro c m q _ hq
      exact ⟨[], by simpa [run] using hq⟩
  | succ f ih =>
      intro c m q hc hq
      cases c with
      | drainQ => simp [Call.isDrain] at hc
      | accept sym => exact ⟨[sym], by simp [run, hq]⟩
      | seq cmds =>
          cases cmds with
          | nil => exact ⟨[], by simpa [run] using hq⟩
          | cons c1 cs =>
              obtain ⟨e1, h1⟩ := ih (.cmd c1) m q rfl hq
              obtain ⟨e2, h2⟩ := ih (.seq cs) _ (q ++ e1) rfl h1
              exact ⟨e1 ++ e2, by simpa [run, List.append_assoc] using h2⟩
      | cmd i =>
          cases i with
          | compare a b =>
              obtain ⟨e, h⟩ := ih (.accept (cmpSymbol (m.getReg a) (m.getReg b))) m q rfl hq
              exact ⟨e, by simpa [run] using h⟩
          | self_trigger s =>
              obtain ⟨e, h⟩ := ih (.accept s) m q rfl hq
              exact ⟨e, by simpa [run] using h⟩
          | sequence cmds =>
              obtain ⟨e, h⟩ := ih (.seq cmds) m q rfl hq
              exact ⟨e, by simpa [run] using h⟩
          | _ => exact ⟨[], by simpa [run, EMachine.setReg] using hq⟩

/-- C6: `StateMachine.transition(symbol)` looks `symbol` up in the current
state's transition table: on a hit it moves the machine to the mapped next
state and returns the mapped instruction; on a miss it returns `None` and
leaves the current state — and in particular the registers — unchanged
(an unknown symbol is silently ignored, not an error). -/
theorem transition_lookup_semantics (m : EMachine) (sym : String) :
    (∀ instr next,
      (m.stateAt m.current).followSymbol sym = some (instr, next) →
        m.transitionM sym = (some instr, { m with current := next })) ∧
    ((m.stateAt m.current).followSymbol sym = none →
      m.transitionM sym = (none, m)) ∧
    (m.transitionM sym).2.registers = m.registers := by
  refine ⟨?_, ?_, ?_⟩
  · intro instr next h
    simp [EMachine.transitionM, h]
  · intro h
    simp [EMachine.transitionM, h]
  · unfold EMachine.transitionM
    cases h : (m.stateAt m.current).followSymbol sym with
    | none => rfl
    | some v => rfl

theorem transition_lookup_semantics_witness :
    demoMachine.transitionM "go" = (some .comment, { demoMachine with current := "s1" }) ∧
    demoMachine.transitionM "nope" = (none, demoMachine) := by
  have h := transition_lookup_semantics demoMachine
  exact ⟨(h "go").1 .comment "s1" rfl, (h "nope").2.1 rfl⟩

/-- C7: `_accept_symbol` is re-entrant-safe with FIFO semantics.
(1) A call made while a drain is in progress (`transition_queue` not
`None`) appends the symbol to the pending queue and returns without
dispatching anything — the machine is otherwise untouched.
(2) A call on an idle machine (the outermost call) creates the queue with
just this symbol and drains it.
(3) The drain loop is FIFO and dispatches each popped symbol fully
(including all its cascading effects) before touching the next pending
symbol.
(4) Any symbols an instruction dispatch self-triggers are queued behind
the remaining pending ones: a dispatch only ever extends the queue at its
tail.
(5) When the queue empties, the drain resets `transition_queue` to `None`. -/
theorem accept_symbol_reentrant_fifo :
    (∀ fuel sym (m : EMachine) q, m.transitionQueue = some q →
        acceptSymbol (fuel + 1) sym m =
          { m with transitionQueue := some (q ++ [sym]) }) ∧
    (∀ fuel sym (m : EMachine), m.transitionQueue = none →
        acceptSymbol (fuel + 1) sym m =
          run fuel .drainQ { m with transitionQueue := some [sym] }) ∧
    (∀ fuel (m : EMachine) sym rest, m.transitionQueue = some (sym :: rest) →
        run (fuel + 1) .drainQ m =
          run fuel .drainQ (dispatchSym fuel sym
            { m with transitionQueue := some rest,
                     dispatched := m.dispatched ++ [sym] })) ∧
    (∀ fuel i (m : EMachine) q, m.transitionQueue = some q →
        ∃ ext, (run fuel (.cmd i) m).transitionQueue = some (q ++ ext)) ∧
    (∀ fuel (m : EMachine), m.transitionQueue = some [] →
        run (fuel + 1) .drainQ m = { m with transitionQueue := none }) := by
  refine ⟨?_, ?_, ?_, ?_, ?_⟩
  · intro fuel sym m q hq; simp [acceptSymbol, run, hq]
  · intro fuel sym m hq; simp [acceptSymbol, run, hq]
  · intro fuel m sym rest hq; simp [run, hq]
  · intro fuel i m q hq; exact run_queue_extends fuel (.cmd i) m q rfl hq
  · intro fuel m hq; simp [run, hq]

theorem accept_symbol_reentrant_fifo_witness :
    acceptSymbol 3 "x" demoBusy = { demoBusy with transitionQueue := some ["p", "x"] } ∧
    acceptSymbol 9 "go" demoMachine =
      run 8 .drainQ { demoMachine with transitionQueue := some ["go"] } ∧
    (run 4 (.cmd (.self_trigger "t")) demoBusy).transitionQueue =
      some (["p"] ++ ["t"]) := by
  refine ⟨accept_symbol_reentrant_fifo.1 2 "x" demoBusy ["p"] rfl, ?_, ?_⟩
  · exact accept_symbol_reentrant_fifo.2.1 8 "go" demoMachine rfl
  · obtain ⟨ext, h⟩ :=
      accept_symbol_reentrant_fifo.2.2.2.1 4 (.self_trigger "t") demoBusy ["p"] rfl
    have : ext = ["t"] := by
      have h' : (run 4 (.cmd (.self_trigger "t")) demoBusy).transitionQueue =
          some ["p", "t"] := by simp [run, demoBusy, demoMachine]
      rw [h'] at h
      injection h with h
      injection h with _ h
      exact h.symm
    rwa [this] at h

theorem sortableLt_iff_keyOf (h : String → ℤ) (a b : PyEvent) :
    sortableLt h a b = true ↔ keyOf h a < keyOf h b := by
  unfold sortableLt keyOf
  by_cases ht : a.time = b.time
  · by_cases hty : caseFold a.eventType = caseFold b.eventType
    · simp [ht, hty, Prod.Lex.lt_iff]
    · simp [ht, hty, Prod.Lex.lt_iff]
  · simp [ht, Prod.Lex.lt_iff]

theorem sortableLe_iff_keyOf (h : String → ℤ) (a b : PyEvent) :
    sortableLe h a b ↔ keyOf h a ≤ keyOf h b := by
  rw [← not_lt, ← sortableLt_iff_keyOf h b a]
  simp [sortableLe]

/-- C5 counterexample: event dispatch order is **not** reproducible across
runs.  The two events below have identical time and identical event type
but different arguments; with the string-hash function of one run
(`hashRunA`) `sort_events` yields one order, with that of another run
(`hashRunB`) the opposite order — CPython's per-process hash salting makes
the tiebreak run-dependent. -/
theorem event_order_not_reproducible_across_runs :
    sortEvents hashRunA [evX, evY] ≠ sortEvents hashRunB [evX, evY] := by
  have hA : sortEvents hashRunA [evX, evY] = [evX, evY] := by
    simp [sortEvents, List.insertionSort, List.orderedInsert, sortableLe,
      sortableLt, hashRunA, evX, evY]
  have hB : sortEvents hashRunB [evX, evY] = [evY, evX] := by
    simp [sortEvents, List.insertionSort, List.orderedInsert, sortableLe,
      sortableLt, hashRunB, evX, evY]
  rw [hA, hB]
  simp [evX, evY]

/-- C5 amended: `sort_events` sorts by non-decreasing time, then by
casefolded event-type name, then by the hash of the canonical
sorted-key JSON of the event's remaining arguments — i.e. it is sorted
and a permutation of the input with respect to exactly that
lexicographic key — and is deterministic for a fixed string-hash
function (one process run).  Across runs the tiebreak for same-time,
same-type events with different arguments follows the per-process
salted string hash, so it is reproducible only when string hashing is
fixed (e.g. `PYTHONHASHSEED`). -/
theorem sort_events_sorted_by_key (h : String → ℤ) (evs : List PyEvent) :
    (sortEvents h evs).Sorted (sortableLe h) ∧
    (sortEvents h evs).Perm evs ∧
    (∀ a b, sortableLe h a b ↔ keyOf h a ≤ keyOf h b) := by
  haveI htot : IsTotal PyEvent (sortableLe h) :=
    ⟨fun a b => by
      rw [sortableLe_iff_keyOf, sortableLe_iff_keyOf]
      exact le_total _ _⟩
  haveI htr : IsTrans PyEvent (sortableLe h) :=
    ⟨fun a b c hab hbc => by
      rw [sortableLe_iff_keyOf] at hab hbc ⊢
      exact le_trans hab hbc⟩
  exact ⟨List.sorted_insertionSort _ _, List.perm_insertionSort _ _,
    fun a b => sortableLe_iff_keyOf h a b⟩

theorem sort_events_sorted_by_key_witness :
    (sortEvents hashRunA [evX, evY]).Perm [evX, evY] ∧
    (sortableLe hashRunA evX evY ↔ keyOf hashRunA evX ≤ keyOf hashRunA evY) := by
  have h := sort_events_sorted_by_key hashRunA [evX, evY]
  exact ⟨h.2.1, h.2.2 evX evY⟩

mutual

theorem methodRoundTrip (m : MethodVal) : methodFromDict (methodToDict m) = m := by
  cases m with
  | str s => simp [methodToDict, methodFromDict]
  | num q => simp [methodToDict, methodFromDict]
  | tup l => simp [methodToDict, methodFromDict, methodRoundTripList l]

theorem methodRoundTripList (l : List MethodVal) :
    methodFromDictList (methodToDictList l) = l := by
  cases l with
  | nil => simp [methodToDictList, methodFromDictList]
  | cons x xs =>
      simp [methodToDictList, methodFromDictList, methodRoundTrip x,
        methodRoundTripList xs]

end

theorem lookup_not_mem {α : Type} {sym : String} {l : List (String × α)}
    (h : sym ∉ l.map (fun t => t.1)) : l.lookup sym = none := by
  induction l with
  | nil => rfl
  | cons t ts ih =>
      obtain ⟨k, v⟩ := t
      simp only [List.map_cons, List.mem_cons] at h
      push_neg at h
      have hb : (sym == k) = false := beq_eq_false_iff_ne.mpr h.1
      simp [List.lookup, hb, ih h.2]

theorem addTransition_fresh (st : StateN MethodVal) (sym : String)
    (m : MethodVal) (out : String) (h : sym ∉ trSymbols st.transitions) :
    st.addTransition sym m out =
      { st with transitions := st.transitions ++ [(sym, m, out)] } := by
  unfold StateN.addTransition
  rw [lookup_not_mem h]
  simp

theorem presOrNew_trans {f g h : SerF} {m : String}
    (h1 : PresOrNew f g m) (h2 : PresOrNew g h m) : PresOrNew f h m := by
  rcases h1 with h1 | ⟨h1n, h1p⟩ <;> rcases h2 with h2 | ⟨h2n, h2p⟩
  · exact Or.inl (h2.trans h1)
  · exact Or.inr ⟨h1 ▸ h2n, h2p⟩
  · exact Or.inr ⟨h1n, h2 ▸ h1p⟩
  · rw [h1p] at h2n; cases h2n

theorem getState_of_some {ser : SerF} {n : String} {st : StateN MethodVal}
    (h : ser n = some st) : getState ser n = (ser, st) := by
  simp [getState, h]

theorem getState_of_none {ser : SerF} {n : String} (h : ser n = none) :
    getState ser n = (serUpdate ser n ⟨n, []⟩, ⟨n, []⟩) := by
  simp [getState, h]

theorem serUpdate_ne {ser : SerF} {n m : String} {st : StateN MethodVal}
    (h : m ≠ n) : serUpdate ser n st m = ser m := by
  simp [serUpdate, h]

theorem serUpdate_self (ser : SerF) (n : String) (st : StateN MethodVal) :
    serUpdate ser n st n = some st := by
  simp [serUpdate]

theorem getState_presOrNew (ser : SerF) (n m : String) :
    PresOrNew ser (getState ser n).1 m := by
  cases h : ser n with
  | some st => rw [getState_of_some h]; exact Or.inl rfl
  | none =>
      rw [getState_of_none h]
      by_cases hm : m = n
      · subst hm; exact Or.inr ⟨h, serUpdate_self ..⟩
      · exact Or.inl (serUpdate_ne hm)

theorem addTransitions_spec (trs : List (String × JVal × String)) :
    ∀ (ser : SerF) (id : String) (cur : List (String × MethodVal × String)),
      ser id = some ⟨id, cur⟩ →
      (∀ t ∈ trs, t.1 ∉ trSymbols cur) →
      (trs.map (fun t => t.1)).Nodup →
      (addTransitions ser id trs) id = some ⟨id, cur ++ trs.map convTr⟩ ∧
      (∀ n, n ≠ id → PresOrNew ser (addTransitions ser id trs) n) := by
  induction trs with
  | nil =>
      intro ser id cur h _ _
      exact ⟨by simpa [addTransitions] using h, fun n _ => Or.inl rfl⟩
  | cons t rest ih =>
      obtain ⟨sym, mj, outId⟩ := t
      intro ser id cur hid hfresh hnodup
      have hid1 : (getState ser outId).1 id = some ⟨id, cur⟩ := by
        rcases getState_presOrNew ser outId id with h | ⟨hn, _⟩
        · rw [h, hid]
        · rw [hid] at hn; cases hn
      have hsym : sym ∉ trSymbols cur :=
        hfresh (sym, mj, outId) (List.mem_cons_self _ _)
      have haddt :
          (((getState ser outId).1 id).getD ⟨id, []⟩).addTransition sym
              (methodFromDict mj) outId =
            ⟨id, cur ++ [(sym, methodFromDict mj, outId)]⟩ := by
        rw [hid1]
        exact addTransition_fresh ⟨id, cur⟩ sym (methodFromDict mj) outId hsym
      have hstep :
          addTransitions ser id ((sym, mj, outId) :: rest) =
            addTransitions
              (serUpdate (getState ser outId).1 id
                ⟨id, cur ++ [(sym, methodFromDict mj, outId)]⟩) id rest := by
        simp only [addTransitions]
        rw [haddt]
      have hnd' : (rest.map (fun t => t.1)).Nodup := by
        simpa using hnodup.of_cons
      have hsymrest : sym ∉ rest.map (fun t => t.1) := by
        have := hnodup
        simp only [List.map_cons, List.nodup_cons] at this
        exact this.1
      have hfresh' : ∀ t ∈ rest,
          t.1 ∉ trSymbols (cur ++ [(sym, methodFromDict mj, outId)]) := by
        intro t ht
        simp only [trSymbols, List.map_append, List.mem_append, List.map_cons,
          List.map_nil, List.mem_singleton, List.mem_cons]
        rintro (hc | hs | hs0)
        · exact hfresh t (List.mem_cons_of_mem _ ht) hc
        · exact hsymrest (hs ▸ List.mem_map.mpr ⟨t, ht, rfl⟩)
        · exact List.not_mem_nil _ hs0
      have hid2 :
          serUpdate (getState ser outId).1 id
              ⟨id, cur ++ [(sym, methodFromDict mj, outId)]⟩ id =
            some ⟨id, cur ++ [(sym, methodFromDict mj, outId)]⟩ :=
        serUpdate_self ..
      obtain ⟨h1, h2⟩ := ih _ id (cur ++ [(sym, methodFromDict mj, outId)])
        hid2 hfresh' hnd'
      constructor
      · rw [hstep, h1]
        simp [convTr]
      · intro n hn
        rw [hstep]
        refine presOrNew_trans (presOrNew_trans (getState_presOrNew ser outId n)
          (Or.inl (serUpdate_ne hn)) : PresOrNew ser _ n) (h2 n hn)

theorem convTr_stateToDict (l : List (String × MethodVal × String)) :
    ((l.map (fun t => (t.1, methodToDict t.2.1, t.2.2))).map convTr) = l := by
  induction l with
  | nil => rfl
  | cons t ts ih => simp [convTr, methodRoundTrip, ih]

theorem loadStates_fold_spec (states : List (StateN MethodVal)) :
    ∀ (acc : SerF),
      (states.map (fun st => st.name)).Nodup →
      (∀ st ∈ states, (trSymbols st.transitions).Nodup) →
      (∀ st ∈ states, acc st.name = none ∨ acc st.name = some ⟨st.name, []⟩) →
      (∀ st ∈ states,
        (states.map stateToDict).foldl stateFromDict acc st.name = some st) ∧
      (∀ n, n ∉ states.map (fun st => st.name) →
        PresOrNew acc ((states.map stateToDict).foldl stateFromDict acc) n) := by
  induction states with
  | nil => intro acc _ _ _; exact ⟨by simp, fun n _ => Or.inl rfl⟩
  | cons st0 rest ih =>
      intro acc hnodup htrs hempty
      have hname0 : st0.name ∉ rest.map (fun st => st.name) := by
        have := hnodup; simp only [List.map_cons, List.nodup_cons] at this
        exact this.1
      have hnd' : (rest.map (fun st => st.name)).Nodup := by
        have := hnodup; simp only [List.map_cons, List.nodup_cons] at this
        exact this.2
      -- the first dict fills st0's (empty) registry entry with its table
      have hst0empty : (getState acc st0.name).1 st0.name =
          some ⟨st0.name, []⟩ := by
        rcases hempty st0 (by simp) with h | h
        · rw [getState_of_none h]; exact serUpdate_self ..
        · rw [getState_of_some h]; exact h
      have hndtr : ((stateToDict st0).transitions.map (fun t => t.1)).Nodup := by
        have := htrs st0 (by simp)
        simpa [stateToDict, trSymbols, Function.comp] using this
      obtain ⟨hfill, hpres⟩ := addTransitions_spec (stateToDict st0).transitions
        (getState acc st0.name).1 st0.name [] hst0empty (by simp [trSymbols])
        hndtr
      have hacc0 : stateFromDict acc (stateToDict st0) st0.name = some st0 := by
        unfold stateFromDict
        simp only [stateToDict] at hfill ⊢
        rw [hfill, List.nil_append, convTr_stateToDict]
      have hacc0pres : ∀ n, n ≠ st0.name →
          PresOrNew acc (stateFromDict acc (stateToDict st0)) n := by
        intro n hn
        unfold stateFromDict
        exact presOrNew_trans (getState_presOrNew acc st0.name n)
          (hpres n (by simpa [stateToDict] using hn))
      have hempty' : ∀ st ∈ rest,
          stateFromDict acc (stateToDict st0) st.name = none ∨
          stateFromDict acc (stateToDict st0) st.name = some ⟨st.name, []⟩ := by
        intro st hst
        have hne : st.name ≠ st0.name := by
          intro h; exact hname0 (h ▸ List.mem_map.mpr ⟨st, hst, rfl⟩)
        rcases hacc0pres st.name hne with h | ⟨_, h⟩
        · rw [h]; exact hempty st (by simp [hst])
        · exact Or.inr h
      obtain ⟨ihfill, ihpres⟩ := ih (stateFromDict acc (stateToDict st0)) hnd'
        (fun st hst => htrs st (by simp [hst])) hempty'
      constructor
      · intro st hst
        rcases List.mem_cons.mp hst with rfl | hst'
        · show ((st :: rest).map stateToDict).foldl stateFromDict acc st.name
              = some st
          simp only [List.map_cons, List.foldl_cons]
          rcases ihpres st.name hname0 with h | ⟨hn, _⟩
          · rw [h, hacc0]
          · rw [hacc0] at hn; cases hn
        · simp only [List.map_cons, List.foldl_cons]
          exact ihfill st hst'
      · intro n hn
        simp only [List.map_cons, List.mem_cons] at hn
        push_neg at hn
        simp only [List.map_cons, List.foldl_cons]
        exact presOrNew_trans (hacc0pres n hn.1) (ihpres n hn.2)

/-- C9: round-trip serialization preserves the transition graph.  For a
serializer arena whose states have distinct names and per-state distinct
transition symbols (the `StateSerializer` / dict invariants): serializing
every state via `to_dict` and reconstructing via `from_dict` through a
shared `StateSerializer` yields a registry in which (1) every original
state name resolves to a state with the identical transition table —
hence (2) following any symbol produces the identical
(instruction, next-state-name) pair; and (3) reconstructing a
`TagMachine` from its serialized initial-state-name triplet resolves
each name to the registered `State` object and registers nothing new, so
any two machines referencing the same state name share one object. -/
theorem serialization_round_trip (states : List (StateN MethodVal))
    (hnames : (states.map (fun st => st.name)).Nodup)
    (htrs : ∀ st ∈ states, (trSymbols st.transitions).Nodup) :
    (∀ st ∈ states, loadStates (states.map stateToDict) st.name = some st) ∧
    (∀ st ∈ states, ∀ sym,
      ((loadStates (states.map stateToDict) st.name).getD
          ⟨st.name, []⟩).followSymbol sym = st.followSymbol sym) ∧
    (∀ (ser : SerF) (d : TMDict) s1 s2 s3,
      ser d.inputMachine = some s1 → ser d.processingMachine = some s2 →
      ser d.outputMachine = some s3 →
      tagMachineFromDict ser d = (ser, s1, s2, s3)) := by
  obtain ⟨h1, _⟩ := loadStates_fold_spec states emptySerF hnames htrs
    (fun st _ => Or.inl rfl)
  refine ⟨fun st hst => h1 st hst, ?_, ?_⟩
  · intro st hst sym
    rw [show loadStates (states.map stateToDict) st.name = some st from h1 st hst]
    rfl
  · intro ser d s1 s2 s3 hd1 hd2 hd3
    simp [tagMachineFromDict, getState_of_some hd1, getState_of_some hd2,
      getState_of_some hd3]

theorem serialization_round_trip_witness :
    loadStates (wStates.map stateToDict) "a" =
      some ⟨"a", [("go", ⟨.tup [.str "self_trigger", .str "x"], "b"⟩)]⟩ ∧
    tagMachineFromDict (loadStates (wStates.map stateToDict)) ⟨"b", "b", "a"⟩ =
      (loadStates (wStates.map stateToDict), ⟨"b", []⟩, ⟨"b", []⟩,
        ⟨"a", [("go", ⟨.tup [.str "self_trigger", .str "x"], "b"⟩)]⟩) := by
  have h := serialization_round_trip wStates (by simp [wStates])
    (by
      intro st hst
      simp only [wStates, List.mem_cons, List.not_mem_nil, or_false] at hst
      rcases hst with rfl | rfl <;> simp [trSymbols])
  have ha := h.1 ⟨"a", [("go", ⟨.tup [.str "self_trigger", .str "x"], "b"⟩)]⟩
    (by simp [wStates])
  have hb := h.1 ⟨"b", []⟩ (by simp [wStates])
  exact ⟨ha, h.2.2 _ ⟨"b", "b", "a"⟩ _ _ _ hb hb ha⟩

theorem lookup_mem {α : Type} {tags : List (String × α)} {nm : String} {v : α}
    (h : tags.lookup nm = some v) : v ∈ tags.map Prod.snd := by
  induction tags with
  | nil => cases h
  | cons p ps ih =>
      obtain ⟨k, w⟩ := p
      cases hb : (nm == k) with
      | true =>
          simp only [List.lookup, hb] at h
          injection h with h
          simp [h]
      | false =>
          simp only [List.lookup, hb] at h
          exact List.mem_cons_of_mem _ (ih h)

theorem tagOfName_mem (tags : List (String × PTag)) (rx : PTag) (nm : String) :
    tagOfName tags rx nm ∈ tags.map Prod.snd ∨ tagOfName tags rx nm = rx := by
  unfold tagOfName
  cases h : tags.lookup nm with
  | none => exact Or.inr rfl
  | some v => exact Or.inl (by simpa using lookup_mem h)

/-- C4: `effective_reflection_coefficient` returns the fixed passive
constant `0.01 + 0j` for every tag that is listening or whose
exciter-delivered power in dBm falls below its power-on threshold
(per-tag `power_on_threshold_dbm` when present, else the engine default),
regardless of chip-impedance configuration; for every powered,
non-listening tag it returns `(Z_chip − conj(Z_ant)) / (Z_chip + Z_ant)`
(total division, `0` on a zero divisor, matching the guarded fallback). -/
theorem reflection_coefficient_cases (e : PEngine) (t : PTag) :
    ((t.mode = 0 ∨
        mWtodBm (powerFromExciterAtTagMw e.exciter t) < (tagThreshold e t : ℝ)) →
      effectiveReflectionCoefficient e t = passiveRef) ∧
    (t.mode ≠ 0 →
      mWtodBm (powerFromExciterAtTagMw e.exciter t) ≥ (tagThreshold e t : ℝ) →
      effectiveReflectionCoefficient e t =
        QC.div (getChipImpedance t - QC.conj t.impedance)
          (getChipImpedance t + t.impedance)) := by
  constructor
  · intro h
    unfold effectiveReflectionCoefficient
    rw [if_pos]
    rcases h with h | h
    · exact Or.inr h
    · exact Or.inl (by unfold isTagPowered; exact not_le.mpr h)
  · intro h1 h2
    unfold effectiveReflectionCoefficient
    rw [if_neg]
    push_neg
    exact ⟨h2, h1⟩

theorem power_ex0_zero (t : PTag) : powerFromExciterAtTagMw ex0 t = 0 := by
  unfold powerFromExciterAtTagMw
  rw [if_pos]
  show ((0 : ℚ) : ℝ) ≤ 0
  norm_num

theorem dbm_ex0 (t : PTag) : mWtodBm (powerFromExciterAtTagMw ex0 t) = -999 := by
  rw [power_ex0_zero]
  unfold mWtodBm
  rw [if_pos le_rfl]

theorem reflection_coefficient_cases_witness :
    effectiveReflectionCoefficient e0 wTagListen = passiveRef ∧
    effectiveReflectionCoefficient e0 wTagUnpowered = passiveRef ∧
    effectiveReflectionCoefficient e0 wTagPowered =
      QC.div (getChipImpedance wTagPowered - QC.conj wTagPowered.impedance)
        (getChipImpedance wTagPowered + wTagPowered.impedance) ∧
    QC.div (getChipImpedance wTagPowered - QC.conj wTagPowered.impedance)
        (getChipImpedance wTagPowered + wTagPowered.impedance) =
      ⟨1 / 101, 10 / 101⟩ := by
  refine ⟨?_, ?_, ?_, ?_⟩
  · exact (reflection_coefficient_cases e0 wTagListen).1 (Or.inl rfl)
  · refine (reflection_coefficient_cases e0 wTagUnpowered).1 (Or.inr ?_)
    rw [show e0.exciter = ex0 from rfl, dbm_ex0]
    show (-999 : ℝ) < ((-100 : ℚ) : ℝ)
    norm_num
  · refine (reflection_coefficient_cases e0 wTagPowered).2 (by norm_num [wTagPowered]) ?_
    rw [show e0.exciter = ex0 from rfl, dbm_ex0]
    show (-999 : ℝ) ≥ ((-10000 : ℚ) : ℝ)
    norm_num
  · apply QC.ext <;>
      simp [QC.div, QC.inv, QC.normSq, getChipImpedance, wTagPowered] <;>
      norm_num

/-- C3: if every tag's effective reflection coefficient is zero, the
solution `S` of the system `(I − HΓ)S = h_exciter` built in
`voltage_at_tag` equals `h_exciter` exactly, entry for entry. -/
theorem solve_reduces_to_exciter_when_gamma_zero (e : PEngine)
    (sigT : PTag → PTag → QC) (sigE : PTag → QC)
    (tags : List (String × PTag)) (rx : PTag)
    (hz : ∀ t : PTag, t ∈ tags.map Prod.snd ∨ t = rx →
      effectiveReflectionCoefficient e t = 0) :
    solveSystem (buildHList sigT tags rx (buildTagNames tags rx))
      (buildGammaList e tags rx (buildTagNames tags rx))
      (buildHexcList sigE tags rx (buildTagNames tags rx)) =
    buildHexcList sigE tags rx (buildTagNames tags rx) := by
  set names := buildTagNames tags rx with hnames
  set hexc := buildHexcList sigE tags rx names with hhexc
  have hgz : toVec hexc.length (buildGammaList e tags rx names) = fun _ => 0 := by
    funext i
    unfold toVec buildGammaList
    rw [List.get?_map]
    have hlt : (i : ℕ) < names.length := by
      have := i.isLt
      simpa [hhexc, buildHexcList] using this
    rw [List.get?_eq_get hlt]
    exact hz _ (tagOfName_mem tags rx _)
  have hdiag : Matrix.diagonal (toVec hexc.length
      (buildGammaList e tags rx names)) = 0 := by
    rw [hgz]
    exact Matrix.diagonal_zero
  unfold solveSystem
  rw [hdiag, mul_zero, sub_zero]
  unfold npSolve
  rw [Matrix.det_one, Matrix.adjugate_one, QC.inv_one]
  simp only [Matrix.one_mulVec, one_mul]
  have : (toVec hexc.length hexc) = fun i : Fin hexc.length => hexc.get i := by
    funext i
    unfold toVec
    rw [List.get?_eq_get i.isLt]
    rfl
  rw [this, List.ofFn_get]

theorem erc_wTagGammaZero : effectiveReflectionCoefficient e0 wTagGammaZero = 0 := by
  unfold effectiveReflectionCoefficient
  rw [if_neg]
  · apply QC.ext <;>
      simp [QC.div, QC.inv, QC.normSq, getChipImpedance, wTagGammaZero]
  · push_neg
    constructor
    · unfold isTagPowered
      rw [show e0.exciter = ex0 from rfl, dbm_ex0]
      show (-999 : ℝ) ≥ ((tagThreshold e0 wTagGammaZero : ℚ) : ℝ)
      norm_num [tagThreshold, wTagGammaZero, e0]
    · norm_num [wTagGammaZero]

theorem solve_reduces_to_exciter_when_gamma_zero_witness :
    solveSystem
      (buildHList (fun _ _ => 1) [("Z", wTagGammaZero)] wTagGammaZero
        (buildTagNames [("Z", wTagGammaZero)] wTagGammaZero))
      (buildGammaList e0 [("Z", wTagGammaZero)] wTagGammaZero
        (buildTagNames [("Z", wTagGammaZero)] wTagGammaZero))
      (buildHexcList (fun _ => 1) [("Z", wTagGammaZero)] wTagGammaZero
        (buildTagNames [("Z", wTagGammaZero)] wTagGammaZero)) =
    buildHexcList (fun _ => 1) [("Z", wTagGammaZero)] wTagGammaZero
      (buildTagNames [("Z", wTagGammaZero)] wTagGammaZero) := by
  refine solve_reduces_to_exciter_when_gamma_zero e0 (fun _ _ => 1) (fun _ => 1)
    [("Z", wTagGammaZero)] wTagGammaZero ?_
  intro t ht
  have hteq : t = wTagGammaZero := by
    rcases ht with ht | ht
    · simpa using ht
    · exact ht
  rw [hteq]
  exact erc_wTagGammaZero

theorem buildTagNames_length_ne_zero (tags : List (String × PTag)) (rx : PTag) :
    (buildTagNames tags rx).length ≠ 0 := by
  unfold buildTagNames
  by_cases h : rx.name ∈ tags.map (fun p => p.1)
  · rw [if_pos h]
    intro hlen
    rw [List.length_eq_zero] at hlen
    simp only [List.append_nil] at hlen
    rw [hlen] at h
    exact List.not_mem_nil _ h
  · rw [if_neg h]
    simp

/-- `voltage_at_tag` on a cache miss (the `else` of line 225): rebuild
`H`, `Γ`, `h_exciter`, solve, and cache everything. -/
theorem voltageAtTag_miss (e : PEngine) (sigT : PTag → PTag → QC)
    (sigE : PTag → QC) (cache : EngCache) (tags : List (String × PTag))
    (rx : PTag)
    (hc : ¬(cache.keyHash = some (computeStateKey tags) ∧
        cache.S.isSome ∧ cache.tagNames = some (buildTagNames tags rx))) :
    voltageAtTag e sigT sigE cache tags rx =
      (vRmsOf rx.impedance
        ((solveSystem (buildHList sigT tags rx (buildTagNames tags rx))
            (buildGammaList e tags rx (buildTagNames tags rx))
            (buildHexcList sigE tags rx (buildTagNames tags rx))).getD
          ((buildTagNames tags rx).indexOf rx.name) 0),
       ⟨some (buildTagNames tags rx),
        some (buildHList sigT tags rx (buildTagNames tags rx)),
        some (buildGammaList e tags rx (buildTagNames tags rx)),
        some (buildHexcList sigE tags rx (buildTagNames tags rx)),
        some (solveSystem (buildHList sigT tags rx (buildTagNames tags rx))
          (buildGammaList e tags rx (buildTagNames tags rx))
          (buildHexcList sigE tags rx (buildTagNames tags rx))),
        some (computeStateKey tags)⟩) := by
  unfold voltageAtTag
  rw [if_neg (buildTagNames_length_ne_zero tags rx), if_neg hc]

/-- `voltage_at_tag` on a cache hit (line 225): reuse the cached `S` and
leave the cache untouched. -/
theorem voltageAtTag_hit (e : PEngine) (sigT : PTag → PTag → QC)
    (sigE : PTag → QC) (cache : EngCache) (tags : List (String × PTag))
    (rx : PTag)
    (hk : cache.keyHash = some (computeStateKey tags))
    (hs : cache.S.isSome) (hn : cache.tagNames = some (buildTagNames tags rx)) :
    voltageAtTag e sigT sigE cache tags rx =
      (vRmsOf rx.impedance
        ((cache.S.getD []).getD ((buildTagNames tags rx).indexOf rx.name) 0),
       cache) := by
  unfold voltageAtTag
  rw [if_neg (buildTagNames_length_ne_zero tags rx), if_pos ⟨hk, hs, hn⟩]

/-- C2 amended: when the tags' state is entirely unchanged between two
consecutive `voltage_at_tag` queries (not merely the hashed projection of
it), the second query takes the cached path — the key, the tag-name
order and the cached solution all match — and returns exactly the
voltage that the fresh rebuild (the first query) computed, leaving the
cache untouched. -/
theorem memo_sound_when_state_unchanged (e : PEngine)
    (sigT : PTag → PTag → QC) (sigE : PTag → QC)
    (tags : List (String × PTag)) (rx : PTag) :
    (voltageAtTag e sigT sigE
        (voltageAtTag e sigT sigE emptyCache tags rx).2 tags rx).1 =
      (voltageAtTag e sigT sigE emptyCache tags rx).1 ∧
    (voltageAtTag e sigT sigE
        (voltageAtTag e sigT sigE emptyCache tags rx).2 tags rx).2 =
      (voltageAtTag e sigT sigE emptyCache tags rx).2 ∧
    (voltageAtTag e sigT sigE emptyCache tags rx).2.keyHash =
      some (computeStateKey tags) ∧
    (voltageAtTag e sigT sigE emptyCache tags rx).2.tagNames =
      some (buildTagNames tags rx) ∧
    (voltageAtTag e sigT sigE emptyCache tags rx).2.S.isSome = true := by
  have hmiss := voltageAtTag_miss e sigT sigE emptyCache tags rx
    (by simp [emptyCache])
  have hhit := voltageAtTag_hit e sigT sigE
    (voltageAtTag e sigT sigE emptyCache tags rx).2 tags rx
    (by rw [hmiss]) (by rw [hmiss]; rfl) (by rw [hmiss])
  rw [hhit, hmiss]
  simp

theorem erc_cTagA :
    effectiveReflectionCoefficient e0 cTagA = ⟨1 / 101, 10 / 101⟩ := by
  unfold effectiveReflectionCoefficient
  rw [if_neg]
  · apply QC.ext <;>
      simp [QC.div, QC.inv, QC.normSq, getChipImpedance, cTagA] <;> norm_num
  · push_neg
    refine ⟨?_, by norm_num [cTagA]⟩
    unfold isTagPowered
    rw [show e0.exciter = ex0 from rfl, dbm_ex0]
    show (-999 : ℝ) ≥ ((tagThreshold e0 cTagA : ℚ) : ℝ)
    norm_num [tagThreshold, cTagA, e0]

theorem erc_cTagAlisten :
    effectiveReflectionCoefficient e0 cTagA' = passiveRef := by
  unfold effectiveReflectionCoefficient
  rw [if_pos (Or.inr (show cTagA'.mode = 0 from rfl))]

theorem erc_cTagB :
    effectiveReflectionCoefficient e0 cTagB = passiveRef := by
  unfold effectiveReflectionCoefficient
  rw [if_pos (Or.inr (show cTagB.mode = 0 from rfl))]

theorem normSq_nonneg (z : QC) : 0 ≤ QC.normSq z :=
  add_nonneg (mul_self_nonneg _) (mul_self_nonneg _)

theorem cAbs_nonneg (z : QC) : 0 ≤ cAbs z := Real.sqrt_nonneg _

/-- The voltage conversion is injective in the modulus of the received
field: equal voltages force equal `normSq` of the field (for a fixed,
nonzero receiver impedance). -/
theorem vRmsOf_ne {z a b : QC} (hz : QC.normSq z ≠ 0)
    (hab : QC.normSq a ≠ QC.normSq b) : vRmsOf z a ≠ vRmsOf z b := by
  intro h
  apply hab
  unfold vRmsOf at h
  have hs2 : (0 : ℝ) < Real.sqrt 2 := Real.sqrt_pos.mpr (by norm_num)
  have h1 : Real.sqrt (|cAbs z * cAbs a| / 500) =
      Real.sqrt (|cAbs z * cAbs b| / 500) := by
    rw [div_eq_mul_inv, div_eq_mul_inv] at h
    exact mul_right_cancel₀ (inv_ne_zero (ne_of_gt hs2)) h
  have h2 : |cAbs z * cAbs a| / 500 = |cAbs z * cAbs b| / 500 :=
    (Real.sqrt_inj (by positivity) (by positivity)).mp h1
  have h3 : |cAbs z * cAbs a| = |cAbs z * cAbs b| := by
    field_simp at h2
    exact h2
  rw [abs_of_nonneg (mul_nonneg (cAbs_nonneg z) (cAbs_nonneg a)),
    abs_of_nonneg (mul_nonneg (cAbs_nonneg z) (cAbs_nonneg b))] at h3
  have hza : cAbs z ≠ 0 := by
    unfold cAbs
    rw [Real.sqrt_ne_zero']
    exact_mod_cast lt_of_le_of_ne (normSq_nonneg z) (Ne.symm hz)
  have h4 : cAbs a = cAbs b := mul_left_cancel₀ hza h3
  unfold cAbs at h4
  exact_mod_cast (Real.sqrt_inj (by exact_mod_cast normSq_nonneg a)
    (by exact_mod_cast normSq_nonneg b)).mp h4

theorem names_cTags1 : buildTagNames cTags1 cTagB = ["A", "B"] := by decide

theorem names_cTags2 : buildTagNames cTags2 cTagB = ["A", "B"] := by decide

theorem hlist_cTags1 :
    buildHList sigOne cTags1 cTagB ["A", "B"] = [[0, 1], [1, 0]] := by decide

theorem hlist_cTags2 :
    buildHList sigOne cTags2 cTagB ["A", "B"] = [[0, 1], [1, 0]] := by decide

theorem hexc_cTags1 :
    buildHexcList sigEOne cTags1 cTagB ["A", "B"] = [1, 1] := by decide

theorem hexc_cTags2 :
    buildHexcList sigEOne cTags2 cTagB ["A", "B"] = [1, 1] := by decide

theorem gammas_cTags1 :
    buildGammaList e0 cTags1 cTagB ["A", "B"] =
      [⟨1 / 101, 10 / 101⟩, ⟨1 / 100, 0⟩] := by
  have hA : cTags1.lookup "A" = some cTagA := by decide
  have hB : cTags1.lookup "B" = some cTagB := by decide
  simp [buildGammaList, tagOfName, hA, hB, erc_cTagA, erc_cTagB, passiveRef]

theorem gammas_cTags2 :
    buildGammaList e0 cTags2 cTagB ["A", "B"] =
      [⟨1 / 100, 0⟩, ⟨1 / 100, 0⟩] := by
  have hA : cTags2.lookup "A" = some cTagA' := by decide
  have hB : cTags2.lookup "B" = some cTagB := by decide
  simp [buildGammaList, tagOfName, hA, hB, erc_cTagAlisten, erc_cTagB, passiveRef]

theorem solve1_entry :
    (solveSystem [[0, 1], [1, 0]] [⟨1 / 101, 10 / 101⟩, ⟨1 / 100, 0⟩]
        [1, 1]).getD 1 0 =
      ⟨1019800 / 1009801, 101000 / 1009801⟩ := by
  unfold solveSystem npSolve
  simp only [List.length_cons, List.length_nil, Nat.reduceAdd,
    Matrix.det_fin_two, Matrix.adjugate_fin_two, List.ofFn_succ, List.ofFn_zero]
  simp only [List.getD_cons_succ, List.getD_cons_zero]
  apply QC.ext <;>
    simp [toMat, toVec, Matrix.mul_apply, Matrix.one_apply, Matrix.sub_apply,
      Matrix.diagonal_apply, Fin.sum_univ_two, Matrix.mulVec, Matrix.dotProduct,
      Matrix.cons_val', Matrix.cons_val_zero, Matrix.cons_val_one,
      Matrix.head_cons, Matrix.head_fin_const, QC.inv, QC.normSq] <;>
    norm_num

theorem solve2_entry :
    (solveSystem [[0, 1], [1, 0]] [⟨1 / 100, 0⟩, ⟨1 / 100, 0⟩]
        [1, 1]).getD 1 0 =
      ⟨100 / 99, 0⟩ := by
  unfold solveSystem npSolve
  simp only [List.length_cons, List.length_nil, Nat.reduceAdd,
    Matrix.det_fin_two, Matrix.adjugate_fin_two, List.ofFn_succ, List.ofFn_zero]
  simp only [List.getD_cons_succ, List.getD_cons_zero]
  apply QC.ext <;>
    simp [toMat, toVec, Matrix.mul_apply, Matrix.one_apply, Matrix.sub_apply,
      Matrix.diagonal_apply, Fin.sum_univ_two, Matrix.mulVec, Matrix.dotProduct,
      Matrix.cons_val', Matrix.cons_val_zero, Matrix.cons_val_one,
      Matrix.head_cons, Matrix.head_fin_const, QC.inv, QC.normSq] <;>
    norm_num

theorem memo_sound_when_state_unchanged_witness :
    (voltageAtTag e0 sigOne sigEOne
        (voltageAtTag e0 sigOne sigEOne emptyCache cTags1 cTagB).2
        cTags1 cTagB).1 =
      (voltageAtTag e0 sigOne sigEOne emptyCache cTags1 cTagB).1 ∧
    (voltageAtTag e0 sigOne sigEOne emptyCache cTags1 cTagB).2.keyHash =
      some (computeStateKey cTags1) := by
  have h := memo_sound_when_state_unchanged e0 sigOne sigEOne cTags1 cTagB
  exact ⟨h.1, h.2.2.1⟩

/-- C2 counterexample: the memo key ignores the tags' modes (and the
imaginary parts of the impedances), so a cache hit can return a stale
voltage.  Tag "A" starts in transmit mode 1 and switches to listening
(mode 0) between two consecutive queries; both of its chip-impedance
table entries are 50 Ω, so the memo key is unchanged and the second
query reuses the cached solution — but its effective reflection
coefficient changed from `(Z_chip − conj(Z_ant))/(Z_chip + Z_ant)` to the
passive constant, and the voltage the cached path returns differs from
what a fresh rebuild over the then-current state returns. -/
theorem memo_stale_on_mode_change :
    computeStateKey cTags1 = computeStateKey cTags2 ∧
    cTagA.mode ≠ cTagA'.mode ∧
    (voltageAtTag e0 sigOne sigEOne
        (voltageAtTag e0 sigOne sigEOne emptyCache cTags1 cTagB).2
        cTags2 cTagB).1 ≠
      (voltageAtTag e0 sigOne sigEOne emptyCache cTags2 cTagB).1 := by
  have hkey : computeStateKey cTags1 = computeStateKey cTags2 := by
    simp [computeStateKey, cTags1, cTags2, cTagA, cTagA', cTagB, getChipImpedance]
  refine ⟨hkey, by decide, ?_⟩
  have hmiss1 := voltageAtTag_miss e0 sigOne sigEOne emptyCache cTags1 cTagB
    (by simp [emptyCache])
  have hmiss2 := voltageAtTag_miss e0 sigOne sigEOne emptyCache cTags2 cTagB
    (by simp [emptyCache])
  have hhit := voltageAtTag_hit e0 sigOne sigEOne
    (voltageAtTag e0 sigOne sigEOne emptyCache cTags1 cTagB).2 cTags2 cTagB
    (by rw [hmiss1]; exact congrArg some hkey)
    (by rw [hmiss1]; rfl)
    (by
      rw [hmiss1]
      show some (buildTagNames cTags1 cTagB) = some (buildTagNames cTags2 cTagB)
      rw [names_cTags1, names_cTags2])
  rw [hhit, hmiss2, hmiss1]
  dsimp only [Option.getD]
  rw [names_cTags1, names_cTags2]
  rw [show ((["A", "B"].indexOf cTagB.name) : ℕ) = 1 from by decide]
  rw [hlist_cTags1, hlist_cTags2, gammas_cTags1, gammas_cTags2,
    hexc_cTags1, hexc_cTags2, solve1_entry, solve2_entry]
  exact vRmsOf_ne (by norm_num [QC.normSq, cTagB]) (by norm_num [QC.normSq])

end Tag2Tag
